import Mathlib

/-!
Shallow embedding of `peg-game-solver.py`: a triangular peg-solitaire solver.

The Python program builds an adjacency graph over the T(n) = n(n+1)/2 holes
of an n-row triangular board (`generate_triangle_graph`), generates legal
jump moves for a board state (`get_valid_moves`), and runs a depth-first
backtracking search (`solve`) that records its move path in the global
`FINAL_MOVE_LIST` and memoizes visited board states in the global `SEEN`.
The globals are initialized once in `main`, which loops over
symmetry-reduced starting positions.

Boards are lists of booleans (peg present / absent).  The global state of
the search (`SEEN`, `FINAL_MOVE_LIST`) is threaded explicitly.  Python's
unbounded recursion is embedded with a fuel parameter; fuel equal to the
number of pegs is shown sufficient (the peg count strictly decreases at
each recursive call).
-/

namespace PegGame

/-- Python `triangular_number(n)`: `n * (n + 1) // 2`. -/
def triangular_number (n : Nat) : Nat := n * (n + 1) / 2

/-- The graph of the Python program: `networkx.Graph` with nodes
`0 .. numNodes - 1`, a per-node `level` attribute (set for every node by the
construction loop, stored here row-major), and an undirected edge list in
insertion order. -/
structure Graph where
  numNodes : Nat
  levels : List Nat
  edges : List (Nat × Nat)
  deriving Repr, DecidableEq

/-- Python `graph.nodes[v]["level"]`. -/
def Graph.level (g : Graph) (v : Nat) : Nat := g.levels.getD v 0

/-- Python `list(graph.neighbors(v))`: networkx returns, for node `v`, its
adjacency in the order the incident edges were inserted, which is the
edge-insertion order filtered to edges touching `v`. -/
def Graph.nbrs (g : Graph) (v : Nat) : List Nat :=
  g.edges.filterMap fun e =>
    if e.1 = v then some e.2 else if e.2 = v then some e.1 else none

/-- The edge-insertion loop of Python `generate_triangle_graph(n)`:
for each row `i < n` and position `j ≤ i` at flat index
`c = i*(i+1)//2 + j`, edges to the bottom-left (`c+i+1`) and bottom-right
(`c+i+2`) nodes when `i < n-1`, and to the right neighbor (`c+1`) when
`j < i`.  No edge is inserted twice, so the list order is exactly the
networkx adjacency insertion order. -/
def triEdges (n : Nat) : List (Nat × Nat) :=
  (List.range n).flatMap fun i =>
    (List.range (i + 1)).flatMap fun j =>
      let c := i * (i + 1) / 2 + j
      (if i < n - 1 then [(c, c + i + 1), (c, c + i + 2)] else []) ++
      (if j < i then [(c, c + 1)] else [])

/-- The level-assignment loop of Python `generate_triangle_graph(n)`:
node `i*(i+1)//2 + j` gets `level = i`; enumerating `(i, j)` row-major
yields the levels list in node order. -/
def triLevels (n : Nat) : List Nat :=
  (List.range n).flatMap fun i => (List.range (i + 1)).map fun _ => i

/-- Python `generate_triangle_graph(n)`: `triangular_number n` nodes, the
level attributes and the edges of the two loops. -/
def generate_triangle_graph (n : Nat) : Graph where
  numNodes := triangular_number n
  levels := triLevels n
  edges := triEdges n

/-- A move `(src, peg_to_remove, dest)` as produced by `get_valid_moves`. -/
abbrev Move := Nat × Nat × Nat

/-- The body of the inner loop of Python `get_valid_moves` for one
`src`/`mid` pair: skip when `mid == src` or `mid` holds no peg; the
candidate destination is `2*mid - src + 1` for a cross-level jump and
`2*mid - src` for a same-level jump (computed in `Int`, as Python ints);
the move is kept when `dest` is a neighbor of `mid` (Python
`dest not in graph.neighbors(mid)` guards the later subscripts, so `dest`
is recovered here as the matching node), `dest` is not a neighbor of
`src`, a same-level jump lands on the same level, and `dest` holds no
peg. -/
def checkMove (g : Graph) (bs : List Bool) (src mid : Nat) : Option Move :=
  if mid = src then none
  else if bs.getD mid false = false then none
  else
    let src_lvl := g.level src
    let mid_lvl := g.level mid
    let destI : Int :=
      if src_lvl ≠ mid_lvl then 2 * (mid : Int) - (src : Int) + 1
      else 2 * (mid : Int) - (src : Int)
    match (g.nbrs mid).find? (fun (d : Nat) => (d : Int) = destI) with
    | none => none
    | some dest =>
      if (g.nbrs src).contains dest then none
      else if src_lvl = mid_lvl ∧ mid_lvl ≠ g.level dest then none
      else if bs.getD dest false then none
      else some (src, mid, dest)

/-- Python `get_valid_moves(graph, bs)`: for every node `src` holding a peg
and every neighbor `mid` of `src`, the moves that pass `checkMove`, in
`src`-index order then neighbor order. -/
def get_valid_moves (g : Graph) (bs : List Bool) : List Move :=
  (List.range g.numNodes).flatMap fun src =>
    if bs.getD src false then (g.nbrs src).filterMap (checkMove g bs src)
    else []

/-- Python `bs.count(True)`. -/
def countPegs (bs : List Bool) : Nat := bs.count true

/-- The three assignments of `solve` applied to the fresh copy `new_bs`:
`new_bs[m[0]] = False; new_bs[m[1]] = False; new_bs[m[2]] = True`. -/
def makeMove (bs : List Bool) (m : Move) : List Bool :=
  ((bs.set m.1 false).set m.2.1 false).set m.2.2 true

/-- Python `''.join(['1' if x else '0' for x in new_bs])`, as its character
sequence: the canonical hashable encoding of a board state. -/
def bs_hash (bs : List Bool) : List Char :=
  bs.map fun x => if x then '1' else '0'

/-- The contents of the global `SEEN` set.  Python only tests membership and
adds, so a list with `contains` is an equivalent embedding. -/
abbrev Seen := List (List Char)

/-- The contents of the global `FINAL_MOVE_LIST`. -/
abbrev Path := List Move

/-- The `for m in moves:` loop of Python `solve`, parameterized by the
recursive call `rec`: for each move, build `new_bs`, skip if its hash is in
`SEEN`, otherwise add the hash, append the move, recurse; on success return
immediately, on failure pop the move and continue.  An exhausted loop (and
the `len(moves) == 0` early return, which coincides with it) returns
failure with `SEEN` and the path as they stand. -/
def solveLoop (rec : List Bool → Seen → Path → Bool × Seen × Path)
    (bs : List Bool) : List Move → Seen → Path → Bool × Seen × Path
  | [], seen, path => (false, seen, path)
  | m :: rest, seen, path =>
    let new_bs := makeMove bs m
    let h := bs_hash new_bs
    if seen.contains h then solveLoop rec bs rest seen path
    else
      match rec new_bs (h :: seen) (path ++ [m]) with
      | (true, s2, p2) => (true, s2, p2)
      | (false, s2, p2) => solveLoop rec bs rest s2 p2.dropLast

/-- Python `solve(graph, bs)` with the globals `SEEN` and `FINAL_MOVE_LIST`
threaded explicitly and recursion bounded by `fuel` (each recursive call of
the Python function is on a board with one peg fewer, so any
`fuel ≥ countPegs bs` reproduces it exactly; see the fuel-irrelevance
theorem).  Returns the boolean result together with the final global
state. -/
def solveF : Nat → Graph → List Bool → Seen → Path → Bool × Seen × Path
  | 0, _, _, seen, path => (false, seen, path)
  | fuel + 1, g, bs, seen, path =>
    if countPegs bs = 1 then (true, seen, path)
    else solveLoop (fun b s p => solveF fuel g b s p) bs
      (get_valid_moves g bs) seen path

/-- One top-level `solve(graph, bs)` call: `countPegs bs` fuel always
suffices. -/
def solve (g : Graph) (bs : List Bool) (seen : Seen) (path : Path) :
    Bool × Seen × Path :=
  solveF (countPegs bs) g bs seen path

/-- The starting board of `main`: all pegs present except `hole`. -/
def startBoard (n : Nat) (hole : Nat) : List Bool :=
  (List.replicate (triangular_number n) true).set hole false

/-- The symmetry-reduced candidate holes that `main` tries, in order:
`for i in range((n_rows // 2) + 1): for j in range(((i + 1) // 2) + 1)`,
hole `i*(i+1)//2 + j`. -/
def mainCandidates (n : Nat) : List Nat :=
  (List.range (n / 2 + 1)).flatMap fun i =>
    (List.range ((i + 1) / 2 + 1)).map fun j => i * (i + 1) / 2 + j

/-- The solve-invocation loop of `main`: `SEEN` and `FINAL_MOVE_LIST` are
initialized once before the loop and NOT reset between the `solve` calls;
the loop stops at the first success.  Returns the final global state
together with the trace of `(hole, seen at call entry, result)` of each
invocation actually performed. -/
def mainLoop (g : Graph) (n : Nat) :
    List Nat → Seen → Path → List (Nat × Seen × Bool) × Seen × Path
  | [], seen, path => ([], seen, path)
  | h :: rest, seen, path =>
    let r := solve g (startBoard n h) seen path
    if r.1 then ([(h, seen, true)], r.2.1, r.2.2)
    else
      let t := mainLoop g n rest r.2.1 r.2.2
      ((h, seen, false) :: t.1, t.2.1, t.2.2)

/-- Python `main` for row count `n`: fresh globals, then the candidate
loop. -/
def mainRun (n : Nat) : List (Nat × Seen × Bool) × Seen × Path :=
  mainLoop (generate_triangle_graph n) n (mainCandidates n) [] []

/-- Well-formedness of a graph: every edge endpoint is a node index.  Holds
for every graph the program builds (checked by evaluation for
`n = 4, 5, 6`). -/
def Graph.WF (g : Graph) : Prop :=
  ∀ e ∈ g.edges, e.1 < g.numNodes ∧ e.2 < g.numNodes

/-- Replay a move list from a board, applying each move in order with the
same three assignments `solve` performs. -/
def replayBoard (bs : List Bool) : List Move → List Bool
  | [] => bs
  | m :: ms => replayBoard (makeMove bs m) ms

/-- Every move of the list is, at the moment it is applied, one of the
moves `get_valid_moves` generates for the board at that moment. -/
def pathLegal (g : Graph) (bs : List Bool) : List Move → Bool
  | [] => true
  | m :: ms => (get_valid_moves g bs).contains m && pathLegal g (makeMove bs m) ms

/-- A store of the Python list objects live during a search: each cell is
one board object.  `bs.copy()` allocates a new cell at the end; the three
in-place subscript assignments of `solve` mutate that cell only.  The
caller's board is the cell the board-index argument points to. -/
abbrev Store := List (List Bool)

/-- The `for m in moves:` loop of `solve`, at the level of board objects:
the board is read from cell `bi` of the store, `new_bs = bs.copy()`
allocates a fresh cell, and the three assignments update that fresh cell
in place.  Mirrors `solveLoop` otherwise. -/
def solveLoopS (rec : Nat → Store → Seen → Path → Bool × Store × Seen × Path)
    (g : Graph) (bi : Nat) :
    List Move → Store → Seen → Path → Bool × Store × Seen × Path
  | [], st, seen, path => (false, st, seen, path)
  | m :: rest, st, seen, path =>
    let ni := st.length
    let st1 := st ++ [st.getD bi []]
    let st2 := st1.set ni ((st1.getD ni []).set m.1 false)
    let st3 := st2.set ni ((st2.getD ni []).set m.2.1 false)
    let st4 := st3.set ni ((st3.getD ni []).set m.2.2 true)
    let h := bs_hash (st4.getD ni [])
    if seen.contains h then solveLoopS rec g bi rest st4 seen path
    else
      match rec ni st4 (h :: seen) (path ++ [m]) with
      | (true, st5, s2, p2) => (true, st5, s2, p2)
      | (false, st5, s2, p2) => solveLoopS rec g bi rest st5 s2 p2.dropLast

/-- Python `solve` at the level of board objects: the board argument is a
reference into the store of allocated list objects; recursion passes the
index of the freshly allocated copy.  Mirrors `solveF` otherwise. -/
def solveS : Nat → Graph → Nat → Store → Seen → Path → Bool × Store × Seen × Path
  | 0, _, _, st, seen, path => (false, st, seen, path)
  | fuel + 1, g, bi, st, seen, path =>
    if countPegs (st.getD bi []) = 1 then (true, st, seen, path)
    else solveLoopS (fun b st2 s2 p2 => solveS fuel g b st2 s2 p2) g bi
      (get_valid_moves g (st.getD bi [])) st seen path

/-! ## Basic list-access lemmas -/

theorem getD_set_ne (bs : List Bool) (i j : Nat) (v d : Bool) (h : i ≠ j) :
    (bs.set i v).getD j d = bs.getD j d := by
  simp [List.getD_eq_getElem?_getD, List.getElem?_set_ne h]

theorem lt_length_of_getD_true (bs : List Bool) (i : Nat)
    (h : bs.getD i false = true) : i < bs.length := by
  by_contra hc
  push_neg at hc
  rw [List.getD_eq_getElem?_getD, List.getElem?_eq_none hc] at h
  simp at h

theorem getElem_of_getD (bs : List Bool) (i : Nat) (b : Bool)
    (hi : i < bs.length) (h : bs.getD i false = b) : bs[i] = b := by
  rw [List.getD_eq_getElem?_getD, List.getElem?_eq_getElem hi] at h
  simpa using h

theorem countPegs_pos_of_getD (bs : List Bool) (i : Nat)
    (h : bs.getD i false = true) : 0 < countPegs bs := by
  have hi := lt_length_of_getD_true bs i h
  have hb := getElem_of_getD bs i true hi h
  exact List.count_pos_iff.mpr (hb ▸ bs.getElem_mem hi)

theorem countPegs_set_false (bs : List Bool) (i : Nat)
    (h : bs.getD i false = true) :
    countPegs (bs.set i false) + 1 = countPegs bs := by
  have hi := lt_length_of_getD_true bs i h
  have hb := getElem_of_getD bs i true hi h
  have hpos := countPegs_pos_of_getD bs i h
  rw [countPegs] at hpos ⊢
  rw [countPegs, List.count_set _ _ _ _ hi, hb]
  simp
  omega

theorem countPegs_set_true (bs : List Bool) (i : Nat) (hi : i < bs.length)
    (h : bs.getD i false = false) :
    countPegs (bs.set i true) = countPegs bs + 1 := by
  have hb := getElem_of_getD bs i false hi h
  rw [countPegs, countPegs, List.count_set _ _ _ _ hi, hb]
  simp

/-! ## Graph lemmas -/

theorem nbrs_lt_of_wf {g : Graph} (hg : g.WF) {v w : Nat}
    (h : w ∈ g.nbrs v) : w < g.numNodes := by
  rw [Graph.nbrs, List.mem_filterMap] at h
  obtain ⟨e, he, hfe⟩ := h
  have hb := hg e he
  split at hfe
  · cases hfe; omega
  · split at hfe
    · cases hfe; omega
    · cases hfe

/-! ## Soundness of the move generator -/

theorem checkMove_some {g : Graph} {bs : List Bool} {src mid : Nat} {m : Move}
    (h : checkMove g bs src mid = some m) :
    m.1 = src ∧ m.2.1 = mid ∧
    mid ≠ src ∧ bs.getD mid false = true ∧
    m.2.2 ∈ g.nbrs mid ∧ m.2.2 ∉ g.nbrs src ∧
    (g.level src = g.level mid → g.level m.2.2 = g.level mid) ∧
    bs.getD m.2.2 false = false := by
  rw [checkMove] at h
  split at h
  · cases h
  · rename_i hms
    split at h
    · cases h
    · rename_i hmp
      dsimp only at h
      split at h
      · cases h
      · rename_i dest hfind
        have hdmem := List.mem_of_find?_eq_some hfind
        split at h
        · cases h
        · rename_i hdsrc
          split at h
          · cases h
          · rename_i hlvl
            split at h
            · cases h
            · rename_i hdp
              cases h
              refine ⟨rfl, rfl, hms, ?_, hdmem, ?_, ?_, ?_⟩
              · revert hmp
                cases bs.getD mid false <;> simp
              · simpa using hdsrc
              · intro hsame
                by_contra hne
                exact hlvl ⟨hsame, fun hh => hne hh.symm⟩
              · revert hdp
                cases bs.getD dest false <;> simp

theorem mem_gvm {g : Graph} {bs : List Bool} {m : Move}
    (h : m ∈ get_valid_moves g bs) :
    m.1 < g.numNodes ∧ bs.getD m.1 false = true ∧
    m.2.1 ∈ g.nbrs m.1 ∧ m.2.1 ≠ m.1 ∧ bs.getD m.2.1 false = true ∧
    m.2.2 ∈ g.nbrs m.2.1 ∧ m.2.2 ∉ g.nbrs m.1 ∧
    (g.level m.1 = g.level m.2.1 → g.level m.2.2 = g.level m.2.1) ∧
    bs.getD m.2.2 false = false := by
  rw [get_valid_moves, List.mem_flatMap] at h
  obtain ⟨src, hsrc, hm⟩ := h
  rw [List.mem_range] at hsrc
  split at hm
  · rename_i hpeg
    rw [List.mem_filterMap] at hm
    obtain ⟨mid, hmid, hf⟩ := hm
    obtain ⟨h1, h2, h3, h4, h5, h6, h7, h8⟩ := checkMove_some hf
    subst h1; subst h2
    exact ⟨hsrc, hpeg, hmid, h3, h4, h5, h6, h7, h8⟩
  · cases hm

/-! ## Applying a move -/

theorem makeMove_length (bs : List Bool) (m : Move) :
    (makeMove bs m).length = bs.length := by
  simp [makeMove]

theorem move_count {g : Graph} (hg : g.WF) {bs : List Bool}
    (hlen : g.numNodes ≤ bs.length) {m : Move}
    (h : m ∈ get_valid_moves g bs) :
    countPegs (makeMove bs m) + 1 = countPegs bs := by
  obtain ⟨hsrc, hps, hmm, hne, hpm, hmd, hnd, hlvl, hpd⟩ := mem_gvm h
  obtain ⟨src, mid, dest⟩ := m
  simp only at hsrc hps hmm hne hpm hmd hnd hlvl hpd
  have hdlt : dest < bs.length := lt_of_lt_of_le (nbrs_lt_of_wf hg hmd) hlen
  have hsd : src ≠ dest := fun hh => by rw [hh, hpd] at hps; cases hps
  have hmdne : mid ≠ dest := fun hh => by rw [hh, hpd] at hpm; cases hpm
  have hsm : src ≠ mid := fun hh => hne hh.symm
  have h1 : countPegs (bs.set src false) + 1 = countPegs bs :=
    countPegs_set_false bs src hps
  have h2 : countPegs ((bs.set src false).set mid false) + 1
      = countPegs (bs.set src false) := by
    apply countPegs_set_false
    rw [getD_set_ne _ _ _ _ _ hsm]
    exact hpm
  have h3 : countPegs (((bs.set src false).set mid false).set dest true)
      = countPegs ((bs.set src false).set mid false) + 1 := by
    apply countPegs_set_true
    · simpa using hdlt
    · rw [getD_set_ne _ _ _ _ _ hmdne, getD_set_ne _ _ _ _ _ hsd]
      exact hpd
  simp only [makeMove]
  omega

theorem gvm_of_no_peg {g : Graph} {bs : List Bool} (h : countPegs bs = 0) :
    get_valid_moves g bs = [] := by
  rw [get_valid_moves, List.flatMap_eq_nil_iff]
  intro src _
  have hf : bs.getD src false = false := by
    by_contra hc
    have ht : bs.getD src false = true := by
      revert hc; cases bs.getD src false <;> simp
    have := countPegs_pos_of_getD bs src ht
    omega
  rw [hf]
  simp

/-! ## The search restores the move path on failure -/

theorem solveLoop_false_path
    {rec : List Bool → Seen → Path → Bool × Seen × Path}
    (hrec : ∀ b s p, (rec b s p).1 = false → (rec b s p).2.2 = p)
    (bs : List Bool) (moves : List Move) :
    ∀ seen path, (solveLoop rec bs moves seen path).1 = false →
      (solveLoop rec bs moves seen path).2.2 = path := by
  induction moves with
  | nil => intro seen path _; rfl
  | cons m rest ih =>
    intro seen path hl
    rw [solveLoop] at hl ⊢
    by_cases hc : seen.contains (bs_hash (makeMove bs m)) = true
    · rw [if_pos hc] at hl ⊢
      exact ih _ _ hl
    · rw [if_neg hc] at hl ⊢
      rcases hr : rec (makeMove bs m) (bs_hash (makeMove bs m) :: seen)
        (path ++ [m]) with ⟨b, s2, p2⟩
      rw [hr] at hl
      cases b
      · have hp2 : p2 = path ++ [m] := by
          have h2 := hrec (makeMove bs m) (bs_hash (makeMove bs m) :: seen)
            (path ++ [m])
          rw [hr] at h2
          exact h2 rfl
        dsimp only at hl ⊢
        have hdl : p2.dropLast = path := by
          rw [hp2]; exact List.dropLast_concat
        rw [hdl] at hl ⊢
        exact ih _ _ hl
      · simp at hl

theorem solveF_false_path (g : Graph) (fuel : Nat) :
    ∀ bs seen path, (solveF fuel g bs seen path).1 = false →
      (solveF fuel g bs seen path).2.2 = path := by
  induction fuel with
  | zero => intro bs seen path _; rfl
  | succ f ih =>
    intro bs seen path hl
    rw [solveF] at hl ⊢
    by_cases hc : countPegs bs = 1
    · rw [if_pos hc] at hl
      simp at hl
    · rw [if_neg hc] at hl ⊢
      exact solveLoop_false_path (fun b s p => ih b s p) bs _ _ _ hl

/-! ## A successful search records a legal, winning move path -/

theorem solveLoop_true_path (g : Graph)
    {rec : List Bool → Seen → Path → Bool × Seen × Path}
    (hrecf : ∀ b s p, (rec b s p).1 = false → (rec b s p).2.2 = p)
    (hrect : ∀ b s p, (rec b s p).1 = true →
      ∃ ext, (rec b s p).2.2 = p ++ ext ∧ pathLegal g b ext = true ∧
        countPegs (replayBoard b ext) = 1)
    (bs : List Bool) (moves : List Move)
    (hmv : ∀ m ∈ moves, m ∈ get_valid_moves g bs) :
    ∀ seen path, (solveLoop rec bs moves seen path).1 = true →
      ∃ ext, (solveLoop rec bs moves seen path).2.2 = path ++ ext ∧
        pathLegal g bs ext = true ∧ countPegs (replayBoard bs ext) = 1 := by
  induction moves with
  | nil => intro seen path hl; simp [solveLoop] at hl
  | cons m rest ih =>
    intro seen path hl
    have hmrest : ∀ x ∈ rest, x ∈ get_valid_moves g bs :=
      fun x hx => hmv x (List.mem_cons_of_mem m hx)
    have hmm : m ∈ get_valid_moves g bs := hmv m (List.mem_cons_self m rest)
    rw [solveLoop] at hl ⊢
    by_cases hc : seen.contains (bs_hash (makeMove bs m)) = true
    · rw [if_pos hc] at hl ⊢
      exact ih hmrest _ _ hl
    · rw [if_neg hc] at hl ⊢
      rcases hr : rec (makeMove bs m) (bs_hash (makeMove bs m) :: seen)
        (path ++ [m]) with ⟨b, s2, p2⟩
      rw [hr] at hl
      cases b
      · have hp2 : p2 = path ++ [m] := by
          have h2 := hrecf (makeMove bs m) (bs_hash (makeMove bs m) :: seen)
            (path ++ [m])
          rw [hr] at h2
          exact h2 rfl
        dsimp only at hl ⊢
        have hdl : p2.dropLast = path := by
          rw [hp2]; exact List.dropLast_concat
        rw [hdl] at hl ⊢
        exact ih hmrest _ _ hl
      · have h2 := hrect (makeMove bs m) (bs_hash (makeMove bs m) :: seen)
          (path ++ [m])
        rw [hr] at h2
        obtain ⟨ext, hpe, hleg, hcnt⟩ := h2 rfl
        refine ⟨m :: ext, ?_, ?_, ?_⟩
        · dsimp only
          dsimp only at hpe
          rw [hpe]
          simp
        · rw [pathLegal, Bool.and_eq_true]
          constructor
          · simpa using hmm
          · exact hleg
        · rw [replayBoard]
          exact hcnt

theorem solveF_true_path (g : Graph) (fuel : Nat) :
    ∀ bs seen path, (solveF fuel g bs seen path).1 = true →
      ∃ ext, (solveF fuel g bs seen path).2.2 = path ++ ext ∧
        pathLegal g bs ext = true ∧ countPegs (replayBoard bs ext) = 1 := by
  induction fuel with
  | zero => intro bs seen path hl; simp [solveF] at hl
  | succ f ih =>
    intro bs seen path hl
    rw [solveF] at hl ⊢
    by_cases hc : countPegs bs = 1
    · rw [if_pos hc] at hl ⊢
      exact ⟨[], by simp, rfl, hc⟩
    · rw [if_neg hc] at hl ⊢
      exact solveLoop_true_path g (fun b s p => solveF_false_path g f b s p)
        (fun b s p => ih b s p) bs _ (fun x hx => hx) _ _ hl

/-! ## Fuel irrelevance: the peg count bounds the recursion depth -/

theorem solveF_no_peg {g : Graph} {bs : List Bool} (h : countPegs bs = 0) :
    ∀ fuel seen path, solveF fuel g bs seen path = (false, seen, path) := by
  intro fuel seen path
  cases fuel with
  | zero => rfl
  | succ f =>
    rw [solveF, if_neg (by omega), gvm_of_no_peg h]
    rfl

theorem solveLoop_congr
    {rec1 rec2 : List Bool → Seen → Path → Bool × Seen × Path}
    (bs : List Bool) (moves : List Move)
    (h : ∀ m ∈ moves, ∀ s p,
      rec1 (makeMove bs m) s p = rec2 (makeMove bs m) s p) :
    ∀ seen path,
      solveLoop rec1 bs moves seen path = solveLoop rec2 bs moves seen path := by
  induction moves with
  | nil => intro seen path; rfl
  | cons m rest ih =>
    intro seen path
    have hm := h m (List.mem_cons_self m rest)
    have hrest : ∀ x ∈ rest, ∀ s p,
        rec1 (makeMove bs x) s p = rec2 (makeMove bs x) s p :=
      fun x hx => h x (List.mem_cons_of_mem m hx)
    rw [solveLoop, solveLoop]
    by_cases hc : seen.contains (bs_hash (makeMove bs m)) = true
    · rw [if_pos hc, if_pos hc]
      exact ih hrest seen path
    · rw [if_neg hc, if_neg hc, hm]
      rcases hr : rec2 (makeMove bs m) (bs_hash (makeMove bs m) :: seen)
        (path ++ [m]) with ⟨b, s2, p2⟩
      cases b
      · dsimp only
        exact ih hrest s2 p2.dropLast
      · rfl

theorem solveF_fuel_irrel {g : Graph} (hg : g.WF) :
    ∀ c bs, countPegs bs = c → g.numNodes ≤ bs.length →
      ∀ f1 f2, c ≤ f1 → c ≤ f2 → ∀ seen path,
        solveF f1 g bs seen path = solveF f2 g bs seen path := by
  intro c
  induction c using Nat.strong_induction_on with
  | _ c ih =>
    intro bs hc hlen f1 f2 h1 h2 seen path
    rcases Nat.eq_zero_or_pos c with hc0 | hcpos
    · subst hc0
      rw [solveF_no_peg hc, solveF_no_peg hc]
    · obtain ⟨a, rfl⟩ : ∃ a, f1 = a + 1 := ⟨f1 - 1, by omega⟩
      obtain ⟨b, rfl⟩ : ∃ b, f2 = b + 1 := ⟨f2 - 1, by omega⟩
      rw [solveF, solveF]
      by_cases h1peg : countPegs bs = 1
      · rw [if_pos h1peg, if_pos h1peg]
      · rw [if_neg h1peg, if_neg h1peg]
        apply solveLoop_congr
        intro m hm s p
        have hcnt := move_count hg hlen hm
        have hlen2 : g.numNodes ≤ (makeMove bs m).length := by
          rw [makeMove_length]; exact hlen
        exact ih (c - 1) (by omega) (makeMove bs m) (by omega) hlen2
          a b (by omega) (by omega) s p

/-! ## The claims -/

/-- C4: for a graph built for n ∈ 4,5,6 and any board, every move
(src, mid, dest) returned by the move generator has pegs at src and mid, a
free dest, dest a graph neighbor of mid, dest not a graph neighbor of src,
and, when src and mid share a row, dest on that same row. -/
theorem get_valid_moves_sound (n : Nat) (hn : n = 4 ∨ n = 5 ∨ n = 6)
    (bs : List Bool) (m : Move)
    (hm : m ∈ get_valid_moves (generate_triangle_graph n) bs) :
    bs.getD m.1 false = true ∧ bs.getD m.2.1 false = true ∧
    bs.getD m.2.2 false = false ∧
    m.2.2 ∈ (generate_triangle_graph n).nbrs m.2.1 ∧
    m.2.2 ∉ (generate_triangle_graph n).nbrs m.1 ∧
    ((generate_triangle_graph n).level m.1 = (generate_triangle_graph n).level m.2.1 →
      (generate_triangle_graph n).level m.2.2 = (generate_triangle_graph n).level m.1) := by
  obtain ⟨_, h2, _, _, h5, h6, h7, h8, h9⟩ := mem_gvm hm
  exact ⟨h2, h5, h9, h6, h7, fun hh => (h8 hh).trans hh.symm⟩

/-- Witness for C4: the move (3, 4, 5) generated on the 10-hole board with
pegs at 3 and 4 only. -/
theorem get_valid_moves_sound_witness :
    (4 = 4 ∨ 4 = 5 ∨ 4 = 6) ∧
    ((3, 4, 5) : Move) ∈ get_valid_moves (generate_triangle_graph 4)
      ((List.replicate 10 false).set 3 true |>.set 4 true) ∧
    ((List.replicate 10 false).set 3 true |>.set 4 true).getD 3 false = true ∧
    ((List.replicate 10 false).set 3 true |>.set 4 true).getD 5 false = false :=
  ⟨Or.inl rfl, by decide,
    (get_valid_moves_sound 4 (Or.inl rfl)
      ((List.replicate 10 false).set 3 true |>.set 4 true) (3, 4, 5)
      (by decide)).1,
    (get_valid_moves_sound 4 (Or.inl rfl)
      ((List.replicate 10 false).set 3 true |>.set 4 true) (3, 4, 5)
      (by decide)).2.2.1⟩

/-- C5: for n ∈ 4,5,6 the built graph has exactly T(n) = n(n+1)/2 nodes,
and every edge joins two in-range positions whose row indices differ by at
most 1. -/
theorem build_graph_nodes_edges (n : Nat) (hn : n = 4 ∨ n = 5 ∨ n = 6) :
    (generate_triangle_graph n).numNodes = n * (n + 1) / 2 ∧
    ∀ e ∈ (generate_triangle_graph n).edges,
      e.1 < n * (n + 1) / 2 ∧ e.2 < n * (n + 1) / 2 ∧
      (generate_triangle_graph n).level e.1
        ≤ (generate_triangle_graph n).level e.2 + 1 ∧
      (generate_triangle_graph n).level e.2
        ≤ (generate_triangle_graph n).level e.1 + 1 := by
  rcases hn with h | h | h <;> subst h <;> exact ⟨rfl, by decide⟩

/-- Witness for C5 at n = 4. -/
theorem build_graph_nodes_edges_witness :
    (4 = 4 ∨ 4 = 5 ∨ 4 = 6) ∧
    (generate_triangle_graph 4).numNodes = 4 * (4 + 1) / 2 :=
  ⟨Or.inl rfl, (build_graph_nodes_edges 4 (Or.inl rfl)).1⟩

/-- C6: applying a move returned by the move generator (src and mid
emptied, dest filled) yields a board with exactly one peg fewer. -/
theorem move_removes_one_peg (n : Nat) (hn : n = 4 ∨ n = 5 ∨ n = 6)
    (bs : List Bool) (hlen : bs.length = triangular_number n)
    (m : Move) (hm : m ∈ get_valid_moves (generate_triangle_graph n) bs) :
    countPegs (makeMove bs m) + 1 = countPegs bs := by
  have hg : (generate_triangle_graph n).WF := by
    rcases hn with h | h | h <;> subst h <;> (unfold Graph.WF; decide)
  apply move_count hg _ hm
  rw [hlen]
  exact Nat.le_of_eq rfl

/-- Witness for C6: the move (3, 4, 5) on the board with pegs at 3 and 4
takes the peg count from 2 to 1. -/
theorem move_removes_one_peg_witness :
    ((List.replicate 10 false).set 3 true |>.set 4 true).length
      = triangular_number 4 ∧
    countPegs (makeMove ((List.replicate 10 false).set 3 true |>.set 4 true)
      (3, 4, 5)) + 1
      = countPegs ((List.replicate 10 false).set 3 true |>.set 4 true) :=
  ⟨by decide,
    move_removes_one_peg 4 (Or.inl rfl)
      ((List.replicate 10 false).set 3 true |>.set 4 true) (by decide)
      (3, 4, 5) (by decide)⟩

/-- C7: the search terminates within peg-count recursion depth: on a
T(n)-hole board, running `solveF` with any fuel at least the number of
pegs gives exactly the result of `solve` (which uses the peg count as
fuel); each recursive call is on a board with one peg fewer, so the extra
fuel is never consumed. -/
theorem solve_fuel_bounded (n : Nat) (hn : n = 4 ∨ n = 5 ∨ n = 6)
    (bs : List Bool) (hlen : bs.length = triangular_number n)
    (fuel : Nat) (hf : countPegs bs ≤ fuel) (seen : Seen) (path : Path) :
    solveF fuel (generate_triangle_graph n) bs seen path
      = solve (generate_triangle_graph n) bs seen path := by
  have hg : (generate_triangle_graph n).WF := by
    rcases hn with h | h | h <;> subst h <;> (unfold Graph.WF; decide)
  rw [solve]
  exact solveF_fuel_irrel hg (countPegs bs) bs rfl
    (by rw [hlen]; exact Nat.le_of_eq rfl) fuel (countPegs bs) hf
    (Nat.le_refl _) seen path

/-- Witness for C7: fuel 7 on the 2-peg board agrees with `solve`. -/
theorem solve_fuel_bounded_witness :
    countPegs ((List.replicate 10 false).set 3 true |>.set 4 true) ≤ 7 ∧
    solveF 7 (generate_triangle_graph 4)
        ((List.replicate 10 false).set 3 true |>.set 4 true) [] []
      = solve (generate_triangle_graph 4)
        ((List.replicate 10 false).set 3 true |>.set 4 true) [] [] :=
  ⟨by decide,
    solve_fuel_bounded 4 (Or.inl rfl)
      ((List.replicate 10 false).set 3 true |>.set 4 true) (by decide)
      7 (by decide) [] []⟩

/-- C8: on a board with exactly one peg, `solve` succeeds immediately: the
seen set is untouched and the returned move path (from an empty
accumulated path) is empty. -/
theorem solve_one_peg (g : Graph) (bs : List Bool) (seen : Seen)
    (h : countPegs bs = 1) : solve g bs seen [] = (true, seen, []) := by
  rw [solve, h, show (1 : Nat) = 0 + 1 from rfl, solveF, if_pos h]

/-- Witness for C8: a single peg at hole 5 of the 10-hole board. -/
theorem solve_one_peg_witness :
    countPegs ((List.replicate 10 false).set 5 true) = 1 ∧
    solve (generate_triangle_graph 4) ((List.replicate 10 false).set 5 true)
      [] [] = (true, [], []) :=
  ⟨by decide,
    solve_one_peg (generate_triangle_graph 4)
      ((List.replicate 10 false).set 5 true) [] (by decide)⟩

/-- C9: when `solve` returns failure, the accumulated move path is exactly
as it was at the call: every move appended in a failed branch was popped
before returning. -/
theorem solve_failure_path_unchanged (g : Graph) (bs : List Bool)
    (seen : Seen) (path : Path)
    (h : (solve g bs seen path).1 = false) :
    (solve g bs seen path).2.2 = path := by
  rw [solve] at h ⊢
  exact solveF_false_path g (countPegs bs) bs seen path h

/-- Witness for C9: pegs at 0 and 9 allow no move; the failing call leaves
the accumulated path intact. -/
theorem solve_failure_path_unchanged_witness :
    (solve (generate_triangle_graph 4)
      ((List.replicate 10 false).set 0 true |>.set 9 true) [] [(0, 0, 0)]).1
      = false ∧
    (solve (generate_triangle_graph 4)
      ((List.replicate 10 false).set 0 true |>.set 9 true) [] [(0, 0, 0)]).2.2
      = [(0, 0, 0)] :=
  ⟨by decide,
    solve_failure_path_unchanged (generate_triangle_graph 4)
      ((List.replicate 10 false).set 0 true |>.set 9 true) [] [(0, 0, 0)]
      (by decide)⟩

/-- C3: when `solve` succeeds on a T(n)-hole board (n ∈ 4,5,6), the
recorded move path, replayed in order from the original board, applies at
each step a move the generator deems legal for the board at that moment,
and ends with exactly one peg. -/
theorem solve_success_replay (n : Nat) (hn : n = 4 ∨ n = 5 ∨ n = 6)
    (bs : List Bool) (hlen : bs.length = triangular_number n) (seen : Seen)
    (hs : (solve (generate_triangle_graph n) bs seen []).1 = true) :
    pathLegal (generate_triangle_graph n) bs
      ((solve (generate_triangle_graph n) bs seen []).2.2) = true ∧
    countPegs (replayBoard bs
      ((solve (generate_triangle_graph n) bs seen []).2.2)) = 1 := by
  rw [solve] at hs ⊢
  obtain ⟨ext, hpe, hleg, hcnt⟩ :=
    solveF_true_path (generate_triangle_graph n) (countPegs bs) bs seen [] hs
  rw [hpe]
  simp only [List.nil_append]
  exact ⟨hleg, hcnt⟩

/-- Witness for C3: the successful search on the board with pegs at 3 and
4 records the path [(3, 4, 5)], which is legal and leaves one peg. -/
theorem solve_success_replay_witness :
    (solve (generate_triangle_graph 4)
      ((List.replicate 10 false).set 3 true |>.set 4 true) [] []).1 = true ∧
    (pathLegal (generate_triangle_graph 4)
      ((List.replicate 10 false).set 3 true |>.set 4 true)
      ((solve (generate_triangle_graph 4)
        ((List.replicate 10 false).set 3 true |>.set 4 true) [] []).2.2)
      = true ∧
    countPegs (replayBoard
      ((List.replicate 10 false).set 3 true |>.set 4 true)
      ((solve (generate_triangle_graph 4)
        ((List.replicate 10 false).set 3 true |>.set 4 true) [] []).2.2))
      = 1) :=
  ⟨by decide,
    solve_success_replay 4 (Or.inl rfl)
      ((List.replicate 10 false).set 3 true |>.set 4 true) (by decide) []
      (by decide)⟩

/-- C1 is violated by the code: `main` initializes `SEEN` once, before its
loop over starting positions, and never clears it.  In the real run for
n = 4 the first solve invocation (hole 0 removed) fails, and the second
invocation (hole 1 removed) starts with the visited-state set the first
left behind — it already contains, for example, the encoding of the state
the first invocation reached from its starting board by the move
(3, 1, 0) — instead of a fresh empty set. -/
theorem mainRun_seen_leak :
    ((mainRun 4).1.map (fun t => (t.1, t.2.2)) = [(0, false), (1, true)]) ∧
    ((mainRun 4).1.getD 0 (0, [], false)).2.1 = [] ∧
    ((mainRun 4).1.getD 1 (0, [], false)).2.1.contains
      (bs_hash (makeMove (startBoard 4 0) (3, 1, 0))) = true := by
  decide

/-- C2 is violated by the code: two successive `solve` calls with the same
graph and the same board do not return the same result, because the
second call inherits the `SEEN` set the first left behind.  On the board
with pegs at 3 and 4 the first call succeeds; the immediately following
call fails (its only move leads to a state already in `SEEN`). -/
theorem solve_second_call_flips :
    (solve (generate_triangle_graph 4)
      ((List.replicate 10 false).set 3 true |>.set 4 true) [] []).1 = true ∧
    (solve (generate_triangle_graph 4)
      ((List.replicate 10 false).set 3 true |>.set 4 true)
      (solve (generate_triangle_graph 4)
        ((List.replicate 10 false).set 3 true |>.set 4 true) [] []).2.1
      (solve (generate_triangle_graph 4)
        ((List.replicate 10 false).set 3 true |>.set 4 true) [] []).2.2).1
      = false := by
  decide

/-! ## The store model: `solve` never mutates its caller's board object -/

theorem getD_append_len {α : Type} (l : List α) (a d : α) :
    (l ++ [a]).getD l.length d = a := by
  induction l with
  | nil => rfl
  | cons x xs ih => simp [ih]

theorem set_append_len {α : Type} (l : List α) (a b : α) :
    (l ++ [a]).set l.length b = l ++ [b] := by
  induction l with
  | nil => rfl
  | cons x xs ih => simp [ih]

theorem solveLoopS_cons_eq
    (rec : Nat → Store → Seen → Path → Bool × Store × Seen × Path)
    (g : Graph) (bi : Nat) (m : Move) (rest : List Move) (st : Store)
    (seen : Seen) (path : Path) :
    solveLoopS rec g bi (m :: rest) st seen path =
      (if seen.contains (bs_hash (makeMove (st.getD bi []) m)) then
        solveLoopS rec g bi rest (st ++ [makeMove (st.getD bi []) m]) seen path
      else
        match rec st.length (st ++ [makeMove (st.getD bi []) m])
            (bs_hash (makeMove (st.getD bi []) m) :: seen) (path ++ [m]) with
        | (true, st5, s2, p2) => (true, st5, s2, p2)
        | (false, st5, s2, p2) =>
          solveLoopS rec g bi rest st5 s2 p2.dropLast) := by
  rw [solveLoopS]
  rw [getD_append_len, set_append_len, getD_append_len, set_append_len,
    getD_append_len, set_append_len, getD_append_len]
  rfl

theorem solveLoopS_store_grows
    {rec : Nat → Store → Seen → Path → Bool × Store × Seen × Path}
    (hrec : ∀ bi st s p, ∃ ext, (rec bi st s p).2.1 = st ++ ext)
    (g : Graph) (bi : Nat) (moves : List Move) :
    ∀ st seen path, ∃ ext,
      (solveLoopS rec g bi moves st seen path).2.1 = st ++ ext := by
  induction moves with
  | nil => intro st seen path; exact ⟨[], (List.append_nil st).symm⟩
  | cons m rest ih =>
    intro st seen path
    rw [solveLoopS_cons_eq]
    by_cases hc : seen.contains (bs_hash (makeMove (st.getD bi []) m)) = true
    · rw [if_pos hc]
      obtain ⟨ext, he⟩ := ih (st ++ [makeMove (st.getD bi []) m]) seen path
      exact ⟨[makeMove (st.getD bi []) m] ++ ext,
        by rw [he, List.append_assoc]⟩
    · rw [if_neg hc]
      have hrext := hrec st.length (st ++ [makeMove (st.getD bi []) m])
        (bs_hash (makeMove (st.getD bi []) m) :: seen) (path ++ [m])
      rcases hr : rec st.length (st ++ [makeMove (st.getD bi []) m])
        (bs_hash (makeMove (st.getD bi []) m) :: seen) (path ++ [m])
        with ⟨b, st5, s2, p2⟩
      rw [hr] at hrext
      dsimp only at hrext
      obtain ⟨ext1, he1⟩ := hrext
      cases b
      · dsimp only
        obtain ⟨ext2, he2⟩ := ih st5 s2 p2.dropLast
        refine ⟨([makeMove (st.getD bi []) m] ++ ext1) ++ ext2, ?_⟩
        rw [he2, he1]
        simp [List.append_assoc]
      · dsimp only
        refine ⟨[makeMove (st.getD bi []) m] ++ ext1, ?_⟩
        rw [he1, List.append_assoc]

theorem solveS_store_grows (g : Graph) (fuel : Nat) :
    ∀ bi st seen path, ∃ ext,
      (solveS fuel g bi st seen path).2.1 = st ++ ext := by
  induction fuel with
  | zero => intro bi st seen path; exact ⟨[], (List.append_nil st).symm⟩
  | succ f ih =>
    intro bi st seen path
    rw [solveS]
    by_cases hc : countPegs (st.getD bi []) = 1
    · rw [if_pos hc]
      exact ⟨[], (List.append_nil st).symm⟩
    · rw [if_neg hc]
      exact solveLoopS_store_grows (fun b st2 s p => ih b st2 s p)
        g bi _ st seen path

theorem solveLoopS_agrees
    {rec : Nat → Store → Seen → Path → Bool × Store × Seen × Path}
    {recF : List Bool → Seen → Path → Bool × Seen × Path}
    (hframe : ∀ b st s p, ∃ ext, (rec b st s p).2.1 = st ++ ext)
    (hrec : ∀ b st s p, b < st.length →
      ((rec b st s p).1, (rec b st s p).2.2) = recF (st.getD b []) s p)
    (g : Graph) (bi : Nat) (moves : List Move) :
    ∀ st seen path, bi < st.length →
      ((solveLoopS rec g bi moves st seen path).1,
        (solveLoopS rec g bi moves st seen path).2.2)
        = solveLoop recF (st.getD bi []) moves seen path := by
  induction moves with
  | nil => intro st seen path hbi; rfl
  | cons m rest ih =>
    intro st seen path hbi
    rw [solveLoopS_cons_eq, solveLoop]
    have h4 : (st ++ [makeMove (st.getD bi []) m]).getD bi []
        = st.getD bi [] := List.getD_append _ _ _ _ hbi
    by_cases hc : seen.contains (bs_hash (makeMove (st.getD bi []) m)) = true
    · rw [if_pos hc, if_pos hc]
      have hbi4 : bi < (st ++ [makeMove (st.getD bi []) m]).length := by
        simp only [List.length_append, List.length_cons]; omega
      have hres := ih (st ++ [makeMove (st.getD bi []) m]) seen path hbi4
      rw [h4] at hres
      exact hres
    · rw [if_neg hc, if_neg hc]
      have hrb : st.length < (st ++ [makeMove (st.getD bi []) m]).length := by
        simp
      have hgb : (st ++ [makeMove (st.getD bi []) m]).getD st.length []
          = makeMove (st.getD bi []) m := getD_append_len _ _ _
      have hx := hrec st.length (st ++ [makeMove (st.getD bi []) m])
        (bs_hash (makeMove (st.getD bi []) m) :: seen) (path ++ [m]) hrb
      rw [hgb] at hx
      have hfr := hframe st.length (st ++ [makeMove (st.getD bi []) m])
        (bs_hash (makeMove (st.getD bi []) m) :: seen) (path ++ [m])
      rcases hr : rec st.length (st ++ [makeMove (st.getD bi []) m])
        (bs_hash (makeMove (st.getD bi []) m) :: seen) (path ++ [m])
        with ⟨b, st5, s2, p2⟩
      rw [hr] at hx hfr
      dsimp only at hx hfr
      obtain ⟨ext1, he1⟩ := hfr
      rw [← hx]
      cases b
      · dsimp only
        have hbi5 : bi < st5.length := by
          rw [he1]
          simp only [List.length_append, List.length_cons]
          omega
        have hres := ih st5 s2 p2.dropLast hbi5
        have h5 : st5.getD bi [] = st.getD bi [] := by
          rw [he1, List.append_assoc]
          exact (List.getD_append _ _ _ _ hbi).trans rfl
        rw [h5] at hres
        exact hres
      · rfl

theorem solveS_agrees (g : Graph) (fuel : Nat) :
    ∀ bi st seen path, bi < st.length →
      ((solveS fuel g bi st seen path).1,
        (solveS fuel g bi st seen path).2.2)
        = solveF fuel g (st.getD bi []) seen path := by
  induction fuel with
  | zero => intro bi st seen path hbi; rfl
  | succ f ih =>
    intro bi st seen path hbi
    rw [solveS, solveF]
    by_cases hc : countPegs (st.getD bi []) = 1
    · rw [if_pos hc, if_pos hc]
    · rw [if_neg hc, if_neg hc]
      exact solveLoopS_agrees (fun b st2 s p => solveS_store_grows g f b st2 s p)
        (fun b st2 s p hb => ih b st2 s p hb) g bi _ st seen path hbi

/-- C10: `solve` never mutates the board passed to it.  In the store model
of the Python list objects (`solveS`, which computes exactly what `solveF`
does on the board cell it is pointed at), after a call returns — success
or failure — the caller's board cell holds exactly the values it held
before the call: every recursive step allocates and mutates only a fresh
copy. -/
theorem solve_frame_input_board (g : Graph) (fuel bi : Nat) (st : Store)
    (seen : Seen) (path : Path) (hbi : bi < st.length) :
    ((solveS fuel g bi st seen path).2.1).getD bi [] = st.getD bi [] := by
  obtain ⟨ext, he⟩ := solveS_store_grows g fuel bi st seen path
  rw [he]
  exact List.getD_append st ext [] bi hbi

/-- Witness for C10: solving the 2-peg board through the store model
leaves the caller's board cell unchanged. -/
theorem solve_frame_input_board_witness :
    (0 : Nat) <
      ([(List.replicate 10 false).set 3 true |>.set 4 true] : Store).length ∧
    ((solveS 2 (generate_triangle_graph 4) 0
        [(List.replicate 10 false).set 3 true |>.set 4 true] [] []).2.1).getD
        0 []
      = ([(List.replicate 10 false).set 3 true |>.set 4 true] :
          Store).getD 0 [] :=
  ⟨by decide,
    solve_frame_input_board (generate_triangle_graph 4) 2 0
      [(List.replicate 10 false).set 3 true |>.set 4 true] [] [] (by decide)⟩

end PegGame

